import Mathlib

/-!
Shallow embedding of the GloVe embedding-index code of
`TensorFlow_Examples/labs/03_LSTM_NLP/NLP_word_vectors_classification.ipynb`:
the load loop building `embeddings_index` / `embeddings_vectors`, the stacked
matrices `glove_embeddings` / `glove_embeddings_normed`, the lookups
`get_emb` / `get_normed_emb`, and `most_similar`.  Machine floats are
modelled as exact numbers: parsed file entries as `ℚ`, derived quantities
(norms, cosines) as `ℝ`.  Lines of the embedding file are modelled at token
level, i.e. after python's `line.split()`.
-/

namespace Glove

/-- Value of a digit string, as the fold `10*n + digit` (validity of the
digits is checked separately by the callers). -/
def digitsNat (cs : List Char) : Nat :=
  cs.foldl (fun n c => 10 * n + (c.toNat - 48)) 0

/-- Split a character list at the dots (structural version of
`List.splitOn '.'`, kept kernel-reducible for concrete witnesses). -/
def splitDot : List Char → List (List Char)
  | [] => [[]]
  | c :: cs =>
    if c = '.' then [] :: splitDot cs
    else
      match splitDot cs with
      | [] => [[c]]
      | h :: t => (c :: h) :: t

/-- Parse an unsigned decimal literal: digits with at most one dot, at
least one digit overall.  This is the fragment of the numeric literals
accepted by `np.asarray(..., dtype='float32')` that this development
needs; `none` models the `ValueError` on a non-numeric token. -/
def parseUnsigned (cs : List Char) : Option ℚ :=
  match splitDot cs with
  | [ds] => if ds ≠ [] ∧ ds.all Char.isDigit then some (digitsNat ds : ℚ) else none
  | [ds, fs] =>
      if (ds ≠ [] ∨ fs ≠ []) ∧ (ds ++ fs).all Char.isDigit then
        some ((digitsNat ds : ℚ) + (digitsNat fs : ℚ) / 10 ^ fs.length)
      else none
  | _ => none

/-- Numeric parsing of one vector component, with an optional sign. -/
def parseFloat (s : String) : Option ℚ :=
  match s.data with
  | '-' :: cs => (parseUnsigned cs).map (fun q => -q)
  | '+' :: cs => parseUnsigned cs
  | cs => parseUnsigned cs

/-- Python dict update `d[k] = v`: replace the value at an existing key in
place, else append a new binding (python dicts keep insertion order). -/
def dictInsert (d : List (String × Nat)) (k : String) (v : Nat) :
    List (String × Nat) :=
  if d.any (fun p => p.1 == k) then
    d.map (fun p => if p.1 == k then (k, v) else p)
  else d ++ [(k, v)]

/-- Python `d.get(k)`. -/
def dictGet (d : List (String × Nat)) (k : String) : Option Nat :=
  (d.find? (fun p => p.1 == k)).map Prod.snd

/-- The dict comprehension `inv_index = {v: k for k, v in
embeddings_index.items()}`, read back as a lookup by id. -/
def invGet (d : List (String × Nat)) (i : Nat) : Option String :=
  (d.find? (fun p => p.2 == i)).map Prod.fst

/-- Failures of the load loop and of `np.vstack`.  The python code raises
`IndexError` / `ValueError`; the spec files the malformed-line cases under
`ParseError`. -/
inductive LoadError
  /-- `values[0]` on a line with no tokens (`IndexError`). -/
  | indexError (lineNo : Nat)
  /-- a non-numeric vector component (`ValueError` in `np.asarray`). -/
  | parseError (lineNo : Nat)
  /-- inconsistent row lengths, or no rows (`ValueError` in `np.vstack`). -/
  | vstackError
deriving DecidableEq

/-- The loaded state: the word→id dict `embeddings_index` and the stacked
matrix `glove_embeddings` (rows as parsed, in file order). -/
structure EmbeddingIndex where
  embeddings_index : List (String × Nat)
  glove_embeddings : List (List ℚ)
deriving DecidableEq

/-- The load loop of the notebook:
`values = line.split(); word = values[0];
vector = np.asarray(values[1:], dtype='float32');
embeddings_index[word] = word_idx; embeddings_vectors.append(vector);
word_idx = word_idx + 1`. -/
def loadLoop : List (List String) → Nat → List (String × Nat) → List (List ℚ) →
    Except LoadError (List (String × Nat) × List (List ℚ) × Nat)
  | [], idx, d, vecs => .ok (d, vecs, idx)
  | values :: rest, idx, d, vecs =>
    match values with
    | [] => .error (.indexError idx)
    | word :: comps =>
      match comps.mapM parseFloat with
      | none => .error (.parseError idx)
      | some vec => loadLoop rest (idx + 1) (dictInsert d word idx) (vecs ++ [vec])

/-- `glove_embeddings = np.vstack(embeddings_vectors)`: all rows must have
equal length and there must be at least one row. -/
def vstack (vecs : List (List ℚ)) : Except LoadError (List (List ℚ)) :=
  match vecs with
  | [] => .error .vstackError
  | v :: rest =>
      if rest.all (fun r => r.length == v.length) then .ok (v :: rest)
      else .error .vstackError

/-- Loading an embedding file: the reading loop followed by stacking the
collected vectors into `glove_embeddings`. -/
def load (lines : List (List String)) : Except LoadError EmbeddingIndex :=
  match loadLoop lines 0 [] [] with
  | .error e => .error e
  | .ok (d, vecs, _) =>
    match vstack vecs with
    | .error e => .error e
    | .ok m => .ok ⟨d, m⟩

/-- Rational dot product of stored rows (used for decidable hypotheses). -/
def dotQ (u v : List ℚ) : ℚ := (List.zipWith (· * ·) u v).sum

/-- Rational sum of squares of a stored row. -/
def sqnormQ (v : List ℚ) : ℚ := dotQ v v

/-- A `most_similar` query: a single word or a python list of words. -/
inductive Query
  | single (w : String)
  | list (ws : List String)

/-- The words mentioned by a query. -/
def queryWords : Query → List String
  | .single w => [w]
  | .list ws => ws

/-- Failures of `most_similar`.  The unguarded python code raises
`TypeError` in these situations (adding / normalizing `None`); the spec
names the missing-word case `UnknownWordError`. -/
inductive SimError
  /-- `get_emb` returned `None` for this word. -/
  | unknownWord (w : String)
  /-- the query was an empty python list, leaving `query_emb = 0`. -/
  | emptyQuery
deriving DecidableEq

noncomputable section

/-- Stored rational rows viewed as real vectors. -/
def castListR (v : List ℚ) : List ℝ := v.map (fun q => (q : ℝ))

/-- `np.dot` of two equal-length vectors. -/
def dot (u v : List ℝ) : ℝ := (List.zipWith (· * ·) u v).sum

/-- Sum of squares. -/
def sqnorm (v : List ℝ) : ℝ := dot v v

/-- `np.linalg.norm(v)`. -/
def l2norm (v : List ℝ) : ℝ := Real.sqrt (sqnorm v)

/-- `v / np.linalg.norm(v)` componentwise.  On a zero vector the code
divides by zero: numpy produces a NaN row (a warning, no exception) while
Lean's convention gives `x / 0 = 0`.  No error is raised in either
semantics, but the two disagree about what a NaN cosine later does to the
ranking (numpy sorts NaN last ascending, hence FIRST after `[::-1]`), so
claim theorems about score values or orderings carry nonzero-vector
hypotheses that keep them on inputs where the model and the code agree. -/
def normalize (v : List ℝ) : List ℝ := v.map (fun x => x / l2norm v)

/-- `get_emb(word)`: id lookup, then the raw matrix row. -/
def get_emb (E : EmbeddingIndex) (word : String) : Option (List ℝ) :=
  (dictGet E.embeddings_index word).bind fun idx =>
    (E.glove_embeddings.get? idx).map castListR

/-- `glove_embeddings_normed = glove_embeddings / glove_norms` (row-wise,
`keepdims=True`). -/
def glove_embeddings_normed (E : EmbeddingIndex) : List (List ℝ) :=
  E.glove_embeddings.map (fun r => normalize (castListR r))

/-- `get_normed_emb(word)`: id lookup, then the normalized matrix row. -/
def get_normed_emb (E : EmbeddingIndex) (word : String) : Option (List ℝ) :=
  (dictGet E.embeddings_index word).bind fun idx =>
    (glove_embeddings_normed E).get? idx

/-- Elementwise vector addition (numpy `+` on equal-length rows). -/
def addVec (u v : List ℝ) : List ℝ := List.zipWith (· + ·) u v

/-- The accumulation loop `for word in words: query_emb += get_emb(word)`.
The accumulator starts as python `int` `0`, modelled as `none`; the first
added row replaces it (`0 + v = v` under broadcasting). -/
def accum_words (E : EmbeddingIndex) : List String → Option (List ℝ) →
    Except SimError (Option (List ℝ))
  | [], acc => .ok acc
  | w :: rest, acc =>
    match get_emb E w with
    | none => .error (.unknownWord w)
    | some v =>
      match acc with
      | none => accum_words E rest (some v)
      | some u => accum_words E rest (some (addVec u v))

/-- The pre-normalization query vector of `most_similar`: the single
looked-up row, or the running sum over the word list. -/
def build_query (E : EmbeddingIndex) : Query → Except SimError (List ℝ)
  | .single w =>
    match get_emb E w with
    | none => .error (.unknownWord w)
    | some v => .ok v
  | .list ws =>
    match accum_words E ws none with
    | .error e => .error e
    | .ok none => .error .emptyQuery
    | .ok (some q) => .ok q

/-- `cosines = np.dot(glove_embeddings_normed, query_emb)`, as a function
of the row number. -/
def cosines (E : EmbeddingIndex) (nq : List ℝ) (i : Nat) : ℝ :=
  dot ((glove_embeddings_normed E).getD i []) nq

/-- The comparison modelling `np.argsort`'s stable ascending order on row
numbers: by score, and for equal scores by row number. -/
def ordKey (f : Nat → ℝ) (i j : Nat) : Prop :=
  f i < f j ∨ (f i = f j ∧ i ≤ j)

open Classical in
/-- `np.argsort`, modelled as a stable ascending sort of the row numbers
by score.  numpy's default kind is quicksort, documented as unstable, so
only score-order properties (not a universal tie order) transfer to the
program; the model's tie order (equal scores in ascending id order)
matches numpy's actual behavior at small sizes, where its introsort falls
back to a stable insertion sort, as in the concrete counterexamples. -/
def argsort (f : Nat → ℝ) (n : Nat) : List Nat :=
  List.insertionSort (ordKey f) (List.range n)

/-- `idxs = np.argsort(cosines)[::-1][:topn]`. -/
def similar_idxs (E : EmbeddingIndex) (nq : List ℝ) (topn : Nat) : List Nat :=
  ((argsort (cosines E nq) E.glove_embeddings.length).reverse).take topn

/-- The notebook's `inv_index`, bound to the loaded state. -/
def inv_index (E : EmbeddingIndex) (i : Nat) : Option String :=
  invGet E.embeddings_index i

/-- `[(inv_index[idx], cosines[idx]) for idx in idxs]`.  A missing id would
be a python `KeyError`; `getD ""` stands in, unreachable on loaded
indexes without repeated words. -/
def rank (E : EmbeddingIndex) (nq : List ℝ) (topn : Nat) : List (String × ℝ) :=
  (similar_idxs E nq topn).map (fun i => ((inv_index E i).getD "", cosines E nq i))

/-- `most_similar(words, topn)` of the notebook. -/
def most_similar (E : EmbeddingIndex) (words : Query) (topn : Nat) :
    Except SimError (List (String × ℝ)) :=
  match build_query E words with
  | .error e => .error e
  | .ok q => .ok (rank E (normalize q) topn)

end

/-! ### Vector arithmetic lemmas -/

lemma dot_nil_left (v : List ℝ) : dot [] v = 0 := rfl

lemma dot_nil_right (u : List ℝ) : dot u [] = 0 := by
  cases u <;> rfl

lemma dot_cons (a b : ℝ) (u v : List ℝ) :
    dot (a :: u) (b :: v) = a * b + dot u v := by
  simp [dot]

lemma sqnorm_nil : sqnorm [] = 0 := rfl

lemma sqnorm_cons (a : ℝ) (v : List ℝ) :
    sqnorm (a :: v) = a * a + sqnorm v := dot_cons a a v v

lemma sqnorm_nonneg (v : List ℝ) : 0 ≤ sqnorm v := by
  induction v with
  | nil => simp [sqnorm_nil]
  | cons a v ih => rw [sqnorm_cons]; nlinarith [mul_self_nonneg a]

lemma l2norm_nonneg (v : List ℝ) : 0 ≤ l2norm v := Real.sqrt_nonneg _

lemma l2norm_mul_self (v : List ℝ) : l2norm v * l2norm v = sqnorm v :=
  Real.mul_self_sqrt (sqnorm_nonneg v)

lemma l2norm_eq_zero_iff (v : List ℝ) : l2norm v = 0 ↔ sqnorm v = 0 := by
  rw [l2norm, Real.sqrt_eq_zero (sqnorm_nonneg v)]

/-- Cauchy–Schwarz for the truncating dot product (no length hypothesis:
the tails beyond the common prefix only increase the right side). -/
lemma dot_sq_le_sqnorm_mul_sqnorm (u : List ℝ) :
    ∀ v : List ℝ, dot u v ^ 2 ≤ sqnorm u * sqnorm v := by
  induction u with
  | nil => intro v; simp [dot_nil_left, mul_nonneg, sqnorm_nonneg]
  | cons a u ih =>
    intro v
    cases v with
    | nil =>
      simp [dot_nil_right, mul_nonneg, sqnorm_nonneg]
    | cons b v =>
      have h := ih v
      have hu := sqnorm_nonneg u
      have hv := sqnorm_nonneg v
      have key : 2 * (a * b) * dot u v ≤ a ^ 2 * sqnorm v + b ^ 2 * sqnorm u := by
        rcases le_or_lt (a * b * dot u v) 0 with hne | hpos
        · nlinarith [sq_nonneg a, sq_nonneg b, mul_nonneg hu hv]
        · have hX : 0 ≤ a ^ 2 * sqnorm v + b ^ 2 * sqnorm u := by positivity
          have hsq : (2 * (a * b) * dot u v) ^ 2 ≤
              (a ^ 2 * sqnorm v + b ^ 2 * sqnorm u) ^ 2 := by
            nlinarith [sq_nonneg (a ^ 2 * sqnorm v - b ^ 2 * sqnorm u), sq_nonneg (a * b)]
          calc 2 * (a * b) * dot u v
              ≤ |2 * (a * b) * dot u v| := le_abs_self _
            _ = Real.sqrt ((2 * (a * b) * dot u v) ^ 2) := (Real.sqrt_sq_eq_abs _).symm
            _ ≤ Real.sqrt ((a ^ 2 * sqnorm v + b ^ 2 * sqnorm u) ^ 2) :=
                Real.sqrt_le_sqrt hsq
            _ = |a ^ 2 * sqnorm v + b ^ 2 * sqnorm u| := Real.sqrt_sq_eq_abs _
            _ = a ^ 2 * sqnorm v + b ^ 2 * sqnorm u := abs_of_nonneg hX
      rw [dot_cons, sqnorm_cons, sqnorm_cons]
      nlinarith [h]

lemma dot_map_div (a b : ℝ) (u : List ℝ) :
    ∀ v : List ℝ, dot (u.map (fun x => x / a)) (v.map (fun y => y / b)) =
      dot u v / (a * b) := by
  induction u with
  | nil => intro v; simp [dot_nil_left]
  | cons x u ih =>
    intro v
    cases v with
    | nil => simp [dot_nil_right]
    | cons y v =>
      simp only [List.map_cons, dot_cons, ih v]
      rw [div_mul_div_comm, div_add_div_same]

lemma dot_normalize_normalize (u v : List ℝ) :
    dot (normalize u) (normalize v) = dot u v / (l2norm u * l2norm v) := by
  rw [normalize, normalize, dot_map_div]

/-- In the model the cosine of two normalized vectors is at most `1`.
(A zero-norm side contributes the model's `x / 0 = 0`, hence score `0`;
the code has NaN there instead, which is why claim theorems about score
values exclude zero vectors.) -/
lemma dot_normalize_le_one (u v : List ℝ) :
    dot (normalize u) (normalize v) ≤ 1 := by
  rw [dot_normalize_normalize]
  rcases eq_or_ne (l2norm u * l2norm v) 0 with h0 | hne
  · rw [h0, div_zero]; norm_num
  · have hu : 0 < l2norm u :=
      (l2norm_nonneg u).lt_of_ne (fun h => hne (by rw [← h, zero_mul]))
    have hv : 0 < l2norm v :=
      (l2norm_nonneg v).lt_of_ne (fun h => hne (by rw [← h, mul_zero]))
    rw [div_le_one (by positivity)]
    calc dot u v ≤ |dot u v| := le_abs_self _
      _ = Real.sqrt (dot u v ^ 2) := (Real.sqrt_sq_eq_abs _).symm
      _ ≤ Real.sqrt (sqnorm u * sqnorm v) :=
          Real.sqrt_le_sqrt (dot_sq_le_sqnorm_mul_sqnorm u v)
      _ = l2norm u * l2norm v := by
          rw [l2norm, l2norm, Real.sqrt_mul (sqnorm_nonneg u)]

/-- Self-similarity is exactly `1` for a nonzero vector. -/
lemma dot_normalize_self (u : List ℝ) (h : sqnorm u ≠ 0) :
    dot (normalize u) (normalize u) = 1 := by
  rw [dot_normalize_normalize, l2norm_mul_self]
  exact div_self h

lemma castListR_nil : castListR [] = [] := rfl

lemma castListR_cons (a : ℚ) (v : List ℚ) :
    castListR (a :: v) = (a : ℝ) :: castListR v := rfl

lemma sqnormQ_cons (a : ℚ) (v : List ℚ) :
    sqnormQ (a :: v) = a * a + sqnormQ v := by
  simp [sqnormQ, dotQ]

lemma sqnorm_castListR (v : List ℚ) : sqnorm (castListR v) = (sqnormQ v : ℝ) := by
  induction v with
  | nil => simp [castListR_nil, sqnorm_nil, sqnormQ, dotQ]
  | cons a v ih =>
    rw [castListR_cons, sqnorm_cons, ih, sqnormQ_cons]
    push_cast
    ring

/-! ### Order lemmas for `argsort` -/

instance ordKey_total (f : Nat → ℝ) : IsTotal Nat (ordKey f) := by
  constructor
  intro i j
  rcases lt_trichotomy (f i) (f j) with h | h | h
  · exact Or.inl (Or.inl h)
  · rcases le_total i j with hij | hij
    · exact Or.inl (Or.inr ⟨h, hij⟩)
    · exact Or.inr (Or.inr ⟨h.symm, hij⟩)
  · exact Or.inr (Or.inl h)

instance ordKey_trans (f : Nat → ℝ) : IsTrans Nat (ordKey f) := by
  constructor
  intro i j k hij hjk
  rcases hij with h1 | ⟨e1, l1⟩
  · rcases hjk with h2 | ⟨e2, _⟩
    · exact Or.inl (h1.trans h2)
    · exact Or.inl (e2 ▸ h1)
  · rcases hjk with h2 | ⟨e2, l2⟩
    · exact Or.inl (e1 ▸ h2)
    · exact Or.inr ⟨e1.trans e2, l1.trans l2⟩

open Classical in
lemma argsort_perm (f : Nat → ℝ) (n : Nat) :
    (argsort f n).Perm (List.range n) :=
  List.perm_insertionSort (ordKey f) (List.range n)

open Classical in
lemma argsort_sorted (f : Nat → ℝ) (n : Nat) :
    List.Sorted (ordKey f) (argsort f n) :=
  List.sorted_insertionSort (ordKey f) (List.range n)

lemma argsort_nodup (f : Nat → ℝ) (n : Nat) : (argsort f n).Nodup :=
  (argsort_perm f n).symm.nodup (List.nodup_range n)

lemma argsort_length (f : Nat → ℝ) (n : Nat) : (argsort f n).length = n := by
  rw [(argsort_perm f n).length_eq, List.length_range]

/-- The strict descending shape of `np.argsort(...)[::-1]`: scores strictly
decrease, and equal scores appear with the larger row number first. -/
lemma rev_argsort_pairwise (f : Nat → ℝ) (n : Nat) :
    ((argsort f n).reverse).Pairwise
      (fun i j => f j < f i ∨ (f i = f j ∧ j < i)) := by
  have hs : (argsort f n).Pairwise (ordKey f) := argsort_sorted f n
  have hn : (argsort f n).Pairwise (fun i j => i ≠ j) := argsort_nodup f n
  have hp := hs.and hn
  rw [List.pairwise_reverse]
  refine hp.imp ?_
  rintro a b ⟨hab, hne⟩
  rcases hab with h | ⟨he, hle⟩
  · exact Or.inl h
  · exact Or.inr ⟨he.symm, lt_of_le_of_ne hle hne⟩

lemma rev_argsort_perm (f : Nat → ℝ) (n : Nat) :
    ((argsort f n).reverse).Perm (List.range n) :=
  (List.reverse_perm (argsort f n)).trans (argsort_perm f n)

/-! ### Query building lemmas -/

lemma most_similar_of_build_ok (E : EmbeddingIndex) (q : Query) (topn : Nat)
    (qv : List ℝ) (h : build_query E q = .ok qv) :
    most_similar E q topn = .ok (rank E (normalize qv) topn) := by
  rw [most_similar, h]

lemma most_similar_of_build_err (E : EmbeddingIndex) (q : Query) (topn : Nat)
    (e : SimError) (h : build_query E q = .error e) :
    most_similar E q topn = .error e := by
  rw [most_similar, h]

lemma build_query_single_ok (E : EmbeddingIndex) (w : String) (v : List ℝ)
    (h : get_emb E w = some v) : build_query E (.single w) = .ok v := by
  rw [build_query, h]

lemma build_query_single_err (E : EmbeddingIndex) (w : String)
    (h : get_emb E w = none) :
    build_query E (.single w) = .error (.unknownWord w) := by
  rw [build_query, h]

lemma accum_words_err (E : EmbeddingIndex) :
    ∀ (ws : List String) (acc : Option (List ℝ)),
      (∃ u ∈ ws, get_emb E u = none) →
      ∃ u, get_emb E u = none ∧
        accum_words E ws acc = .error (.unknownWord u)
  | [], _, h => absurd h (by simp)
  | w :: rest, acc, h => by
    cases hw : get_emb E w with
    | none =>
      refine ⟨w, hw, ?_⟩
      rw [accum_words, hw]
    | some v =>
      rcases h with ⟨u, hu, hnone⟩
      have hur : u ∈ rest := by
        rcases List.mem_cons.mp hu with rfl | h'
        · rw [hw] at hnone; cases hnone
        · exact h'
      have step : accum_words E (w :: rest) acc =
          accum_words E rest
            (match acc with
              | none => some v
              | some u' => some (addVec u' v)) := by
        rw [accum_words, hw]
        cases acc <;> rfl
      rcases accum_words_err E rest _ ⟨u, hur, hnone⟩ with ⟨u', h1, h2⟩
      exact ⟨u', h1, by rw [step, h2]⟩

lemma accum_words_foldl (E : EmbeddingIndex) :
    ∀ (ws : List String) (vs : List (List ℝ)) (acc : List ℝ),
      ws.mapM (get_emb E) = some vs →
      accum_words E ws (some acc) = .ok (some (vs.foldl addVec acc))
  | [], vs, acc, h => by
    have h' : some ([] : List (List ℝ)) = some vs := h
    cases h'
    rfl
  | w :: rest, vs, acc, h => by
    rw [List.mapM_cons] at h
    cases hw : get_emb E w with
    | none => rw [hw] at h; cases h
    | some v =>
      rw [hw] at h
      cases hrest : rest.mapM (get_emb E) with
      | none => rw [hrest] at h; cases h
      | some vs' =>
        rw [hrest] at h
        have h' : some (v :: vs') = some vs := h
        cases h'
        have step : accum_words E (w :: rest) (some acc) =
            accum_words E rest (some (addVec acc v)) := by
          rw [accum_words, hw]
        rw [step, accum_words_foldl E rest vs' (addVec acc v) hrest]
        rfl

lemma build_query_list_ok (E : EmbeddingIndex) (w : String) (ws : List String)
    (v : List ℝ) (vs : List (List ℝ))
    (hw : get_emb E w = some v) (hrest : ws.mapM (get_emb E) = some vs) :
    build_query E (.list (w :: ws)) = .ok (vs.foldl addVec v) := by
  have hacc : accum_words E (w :: ws) none = .ok (some (vs.foldl addVec v)) := by
    have step : accum_words E (w :: ws) none = accum_words E ws (some v) := by
      rw [accum_words, hw]
    rw [step, accum_words_foldl E ws vs v hrest]
  rw [build_query, hacc]

/-! ### Averaging / scaling lemmas -/

lemma addVec_nil_left (v : List ℝ) : addVec [] v = [] := rfl

lemma addVec_cons (a b : ℝ) (u v : List ℝ) :
    addVec (a :: u) (b :: v) = (a + b) :: addVec u v := rfl

lemma addVec_self (v : List ℝ) : addVec v v = v.map (fun x => 2 * x) := by
  induction v with
  | nil => rfl
  | cons a v ih => rw [addVec_cons, ih, List.map_cons, two_mul]

lemma sqnorm_map_mul (c : ℝ) (v : List ℝ) :
    sqnorm (v.map (fun x => c * x)) = c ^ 2 * sqnorm v := by
  induction v with
  | nil => simp [sqnorm_nil]
  | cons a v ih => rw [List.map_cons, sqnorm_cons, sqnorm_cons, ih]; ring

lemma normalize_double (v : List ℝ) :
    normalize (v.map (fun x => 2 * x)) = normalize v := by
  have h4 : Real.sqrt 4 = 2 := by
    rw [show (4 : ℝ) = 2 ^ 2 by norm_num, Real.sqrt_sq (by norm_num : (0:ℝ) ≤ 2)]
  have hl : l2norm (v.map (fun x => 2 * x)) = 2 * l2norm v := by
    rw [l2norm, sqnorm_map_mul, l2norm, show (2:ℝ) ^ 2 = 4 by norm_num,
      Real.sqrt_mul (by norm_num : (0:ℝ) ≤ 4), h4]
  rw [normalize, normalize, hl, List.map_map]
  refine List.map_congr_left ?_
  intro x _
  simp only [Function.comp_apply]
  exact mul_div_mul_left x (l2norm v) two_ne_zero

lemma addVec_length (u v : List ℝ) :
    (addVec u v).length = min u.length v.length :=
  List.length_zipWith _ u v

lemma addVec_getD (u v : List ℝ) (i : Nat) (hu : i < u.length)
    (hv : i < v.length) :
    (addVec u v).getD i 0 = u.getD i 0 + v.getD i 0 := by
  have hlen : i < (addVec u v).length := by
    rw [addVec_length]; exact lt_min hu hv
  rw [List.getD_eq_getElem _ _ hlen, List.getD_eq_getElem _ _ hu,
    List.getD_eq_getElem _ _ hv]
  exact List.getElem_zipWith

/-- `foldl addVec` over rows of one common length `D` is the pointwise sum. -/
lemma foldl_addVec_spec (D : Nat) :
    ∀ (vs : List (List ℝ)) (acc : List ℝ), (∀ v ∈ vs, v.length = D) →
      acc.length = D →
      (vs.foldl addVec acc).length = D ∧
      ∀ i, i < D → (vs.foldl addVec acc).getD i 0 =
        acc.getD i 0 + (vs.map (fun v => v.getD i 0)).sum
  | [], acc, _, hacc => by
    refine ⟨hacc, ?_⟩
    intro i _
    simp
  | v :: vs, acc, hv, hacc => by
    have hvD : v.length = D := hv v (List.mem_cons_self v vs)
    have hlen : (addVec acc v).length = D := by
      rw [addVec_length, hacc, hvD, min_self]
    have ih := foldl_addVec_spec D vs (addVec acc v)
      (fun r hr => hv r (List.mem_cons_of_mem v hr)) hlen
    refine ⟨ih.1, ?_⟩
    intro i hi
    rw [List.foldl_cons, ih.2 i hi,
      addVec_getD acc v i (hacc ▸ hi) (hvD ▸ hi), List.map_cons, List.sum_cons]
    ring

/-! ### Load loop lemmas -/

lemma mapM_none_of_mem {α β : Type} (f : α → Option β) :
    ∀ (l : List α) (t : α), t ∈ l → f t = none → l.mapM f = none
  | [], t, ht, _ => absurd ht (List.not_mem_nil t)
  | a :: l, t, ht, hn => by
    rw [List.mapM_cons]
    rcases List.mem_cons.mp ht with rfl | hl
    · rw [hn]; rfl
    · cases ha : f a with
      | none => rfl
      | some b => rw [mapM_none_of_mem f l t hl hn]; rfl

lemma mapM_some_length {α β : Type} (f : α → Option β) :
    ∀ (l : List α) (r : List β), l.mapM f = some r → r.length = l.length
  | [], r, h => by
    have h' : some ([] : List β) = some r := h
    cases h'
    rfl
  | a :: l, r, h => by
    rw [List.mapM_cons] at h
    cases ha : f a with
    | none => rw [ha] at h; cases h
    | some b =>
      rw [ha] at h
      cases hl : l.mapM f with
      | none => rw [hl] at h; cases h
      | some r' =>
        rw [hl] at h
        have h' : some (b :: r') = some r := h
        cases h'
        rw [List.length_cons, List.length_cons, mapM_some_length f l r' hl]

lemma forall₂_mem_left {α β : Type} {R : α → β → Prop} :
    ∀ {l₁ : List α} {l₂ : List β}, List.Forall₂ R l₁ l₂ →
      ∀ a ∈ l₁, ∃ b ∈ l₂, R a b := by
  intro l₁ l₂ h
  induction h with
  | nil => intro a ha; exact absurd ha (List.not_mem_nil a)
  | cons hR _ ih =>
    intro x hx
    rcases List.mem_cons.mp hx with rfl | hx'
    · exact ⟨_, List.mem_cons_self _ _, hR⟩
    · rcases ih x hx' with ⟨b, hb, hRb⟩
      exact ⟨b, List.mem_cons_of_mem _ hb, hRb⟩

lemma dictInsert_fresh (d : List (String × Nat)) (k : String) (v : Nat)
    (h : ∀ p ∈ d, p.1 ≠ k) : dictInsert d k v = d ++ [(k, v)] := by
  rw [dictInsert, if_neg]
  intro hany
  rw [List.any_eq_true] at hany
  rcases hany with ⟨p, hp, hpk⟩
  exact h p hp (by simpa using hpk)

/-- A successful load loop collects, in order, one parsed vector per line. -/
lemma loadLoop_ok_vecs :
    ∀ (lines : List (List String)) (idx : Nat) (d : List (String × Nat))
      (vecs : List (List ℚ))
      (res : List (String × Nat) × List (List ℚ) × Nat),
      loadLoop lines idx d vecs = .ok res →
      ∃ ps, res.2.1 = vecs ++ ps ∧
        List.Forall₂ (fun (vs : List String) (p : List ℚ) =>
          vs ≠ [] ∧ vs.tail.mapM parseFloat = some p) lines ps
  | [], idx, d, vecs, res, h => by
    have h' : (Except.ok (d, vecs, idx) : Except LoadError _) = .ok res := h
    cases h'
    exact ⟨[], by simp, List.Forall₂.nil⟩
  | values :: rest, idx, d, vecs, res, h => by
    cases values with
    | nil => cases h
    | cons word comps =>
      rw [loadLoop] at h
      cases hm : comps.mapM parseFloat with
      | none => rw [hm] at h; cases h
      | some vec =>
        rw [hm] at h
        rcases loadLoop_ok_vecs rest (idx + 1) (dictInsert d word idx)
            (vecs ++ [vec]) res h with ⟨ps, hps, hfa⟩
        refine ⟨vec :: ps, by rw [hps]; simp, ?_⟩
        exact List.Forall₂.cons ⟨List.cons_ne_nil word comps, hm⟩ hfa

/-- A line with a non-numeric component (or an empty line) makes the load
loop fail, wherever in the file it sits. -/
lemma loadLoop_err_of_bad :
    ∀ (lines : List (List String)) (idx : Nat) (d : List (String × Nat))
      (vecs : List (List ℚ)),
      (∃ vs ∈ lines, ∃ t ∈ vs.tail, parseFloat t = none) →
      ∃ e, loadLoop lines idx d vecs = .error e
  | [], _, _, _, h => absurd h (by simp)
  | values :: rest, idx, d, vecs, h => by
    cases values with
    | nil => exact ⟨.indexError idx, rfl⟩
    | cons word comps =>
      rw [loadLoop]
      cases hm : comps.mapM parseFloat with
      | none => exact ⟨.parseError idx, rfl⟩
      | some vec =>
        rcases h with ⟨vs, hvs, t, ht, hnone⟩
        rcases List.mem_cons.mp hvs with rfl | hrest
        · exact absurd (mapM_none_of_mem parseFloat comps t ht hnone)
            (by rw [hm]; exact Option.some_ne_none vec)
        · exact loadLoop_err_of_bad rest (idx + 1) (dictInsert d word idx)
            (vecs ++ [vec]) ⟨vs, hrest, t, ht, hnone⟩

lemma vstack_err_of_two (vecs : List (List ℚ)) (p₁ p₂ : List ℚ)
    (h₁ : p₁ ∈ vecs) (h₂ : p₂ ∈ vecs) (hne : p₁.length ≠ p₂.length) :
    vstack vecs = .error .vstackError := by
  cases vecs with
  | nil => rfl
  | cons v rest =>
    rw [vstack, if_neg]
    intro hall
    rw [List.all_eq_true] at hall
    have hv : ∀ r ∈ v :: rest, r.length = v.length := by
      intro r hr
      rcases List.mem_cons.mp hr with rfl | hr'
      · rfl
      · simpa using hall r hr'
    exact hne (by rw [hv p₁ h₁, hv p₂ h₂])

/-- With pairwise-distinct first tokens, all fresh for the accumulated
dict, the load loop appends exactly one binding per line: words in file
order, ids consecutive from the starting counter. -/
lemma loadLoop_ok_index :
    ∀ (lines : List (List String)) (idx : Nat) (d : List (String × Nat))
      (vecs : List (List ℚ))
      (res : List (String × Nat) × List (List ℚ) × Nat),
      loadLoop lines idx d vecs = .ok res →
      (∀ vs ∈ lines, ∀ p ∈ d, p.1 ≠ vs.headD "") →
      (lines.map (fun vs => vs.headD "")).Nodup →
      res.1.map Prod.snd = d.map Prod.snd ++ List.range' idx lines.length ∧
      res.1.map Prod.fst = d.map Prod.fst ++ lines.map (fun vs => vs.headD "")
  | [], idx, d, vecs, res, h, _, _ => by
    have h' : (Except.ok (d, vecs, idx) : Except LoadError _) = .ok res := h
    cases h'
    simp
  | values :: rest, idx, d, vecs, res, h, hfresh, hnd => by
    cases values with
    | nil => cases h
    | cons word comps =>
      rw [loadLoop] at h
      cases hm : comps.mapM parseFloat with
      | none => rw [hm] at h; cases h
      | some vec =>
        rw [hm] at h
        have hw : dictInsert d word idx = d ++ [(word, idx)] :=
          dictInsert_fresh d word idx
            (fun p hp => hfresh (word :: comps)
              (List.mem_cons_self _ _) p hp)
        rw [hw] at h
        have hfresh' : ∀ vs ∈ rest, ∀ p ∈ d ++ [(word, idx)],
            p.1 ≠ vs.headD "" := by
          intro vs hvs p hp
          rcases List.mem_append.mp hp with hpd | hpw
          · exact hfresh vs (List.mem_cons_of_mem _ hvs) p hpd
          · have hpw' : p = (word, idx) := by simpa using hpw
            subst hpw'
            have : (word :: comps).headD "" ∉
                rest.map (fun vs => vs.headD "") := by
              exact (List.nodup_cons.mp (by simpa using hnd)).1
            intro hcontra
            exact this (by
              rw [List.mem_map]
              exact ⟨vs, hvs, by simpa using hcontra.symm⟩)
        have hnd' : (rest.map (fun vs => vs.headD "")).Nodup :=
          (List.nodup_cons.mp (by simpa using hnd)).2
        have ih := loadLoop_ok_index rest (idx + 1) (d ++ [(word, idx)])
          (vecs ++ [vec]) res h hfresh' hnd'
        constructor
        · rw [ih.1]
          simp [List.range'_succ]
        · rw [ih.2]
          simp

lemma l2norm_normalize (v : List ℝ) (h : l2norm v ≠ 0) :
    l2norm (normalize v) = 1 := by
  have hs : sqnorm v ≠ 0 := fun hc => h ((l2norm_eq_zero_iff v).mpr hc)
  have h1 : sqnorm (normalize v) = 1 := dot_normalize_self v hs
  rw [l2norm, h1, Real.sqrt_one]

/-! ### Claim theorems -/

/-- C2: for every query to `most_similar`, single word or list of words,
a query word absent from the vocabulary makes the call fail with the
unknown-word error before any ranking is produced (the python code raises
a `TypeError` when `None` is added to or normalized into the query
vector; the spec names this `UnknownWordError`); no absent word is
silently skipped. -/
theorem mostSimilar_unknown_word_fails (E : EmbeddingIndex) (q : Query)
    (topn : Nat) (h : ∃ u ∈ queryWords q, get_emb E u = none) :
    ∃ u, get_emb E u = none ∧
      most_similar E q topn = .error (.unknownWord u) := by
  cases q with
  | single w =>
    rcases h with ⟨u, hu, hnone⟩
    have hu' : u = w := by simpa [queryWords] using hu
    subst hu'
    exact ⟨u, hnone,
      most_similar_of_build_err _ _ _ _ (build_query_single_err E u hnone)⟩
  | list ws =>
    rcases accum_words_err E ws none (by simpa [queryWords] using h) with
      ⟨u, h1, h2⟩
    refine ⟨u, h1, most_similar_of_build_err _ _ _ _ ?_⟩
    rw [build_query, h2]

/-- C2 witness, at the spec's example shape `["cat", "unknownword"]`. -/
theorem mostSimilar_unknown_word_fails_witness :
    ∃ u, get_emb ⟨[("cat", 0)], [[1, 0]]⟩ u = none ∧
      most_similar ⟨[("cat", 0)], [[1, 0]]⟩ (.list ["cat", "unknownword"]) 10 =
        .error (.unknownWord u) :=
  mostSimilar_unknown_word_fails ⟨[("cat", 0)], [[1, 0]]⟩
    (.list ["cat", "unknownword"]) 10
    ⟨"unknownword", by simp [queryWords], by
      rw [get_emb, show dictGet [("cat", 0)] "unknownword" = none from by decide]
      rfl⟩

/-- All query words resolving makes the accumulation loop succeed with a
summed vector. -/
lemma accum_words_ok_some (E : EmbeddingIndex) :
    ∀ (ws : List String) (u : List ℝ),
      (∀ w ∈ ws, ∃ v, get_emb E w = some v) →
      ∃ r, accum_words E ws (some u) = .ok (some r)
  | [], u, _ => ⟨u, rfl⟩
  | w :: rest, u, h => by
    rcases h w (List.mem_cons_self w rest) with ⟨v, hv⟩
    have step : accum_words E (w :: rest) (some u) =
        accum_words E rest (some (addVec u v)) := by
      rw [accum_words, hv]
    rcases accum_words_ok_some E rest (addVec u v)
      (fun w' hw' => h w' (List.mem_cons_of_mem w hw')) with ⟨r, hr⟩
    exact ⟨r, by rw [step, hr]⟩

/-- C3 amended: `most_similar` contains no zero-norm guard.  For every
query — single word or list of words — whose words all resolve, it
returns a ranking whether or not the resolved (averaged/summed) query
vector's norm is zero: in particular for zero norm by cancellation.  No
`DegenerateVectorError` exists in the code: numpy divides by the zero
norm (NaN scores, a runtime warning, no exception) and still returns a
ranking, as does the model with `x / 0 = 0`. -/
theorem mostSimilar_no_zero_norm_guard (E : EmbeddingIndex) (q : Query)
    (topn : Nat) (hne : queryWords q ≠ [])
    (hres : ∀ u ∈ queryWords q, ∃ v, get_emb E u = some v) :
    ∃ l, most_similar E q topn = .ok l := by
  cases q with
  | single w =>
    rcases hres w (by simp [queryWords]) with ⟨v, hv⟩
    exact ⟨_, most_similar_of_build_ok E _ topn _
      (build_query_single_ok E w v hv)⟩
  | list ws =>
    cases ws with
    | nil => exact absurd rfl hne
    | cons w rest =>
      rcases hres w (by simp [queryWords]) with ⟨v, hv⟩
      have hrest : ∀ u ∈ rest, ∃ v', get_emb E u = some v' := by
        intro u hu
        exact hres u (by simp [queryWords, hu])
      rcases accum_words_ok_some E rest v hrest with ⟨r, hr⟩
      have hacc : accum_words E (w :: rest) none = .ok (some r) := by
        rw [accum_words, hv]
        exact hr
      exact ⟨_, most_similar_of_build_ok E _ topn _ (by rw [build_query, hacc])⟩

/-- C3 amended witness at the central cancellation case: the rows
`[1, 0]` and `[-1, 0]` sum to the exactly-zero query vector, and the call
still returns a ranking. -/
theorem mostSimilar_no_zero_norm_guard_witness :
    ∃ l, most_similar ⟨[("a", 0), ("b", 1)], [[1, 0], [-1, 0]]⟩
      (.list ["a", "b"]) 5 = .ok l :=
  mostSimilar_no_zero_norm_guard ⟨[("a", 0), ("b", 1)], [[1, 0], [-1, 0]]⟩
    (.list ["a", "b"]) 5 (by simp [queryWords])
    (by
      intro u hu
      simp only [queryWords, List.mem_cons, List.not_mem_nil, or_false] at hu
      rcases hu with rfl | rfl
      · exact ⟨castListR [1, 0], by
          rw [get_emb,
            show dictGet [("a", 0), ("b", 1)] "a" = some 0 from by decide]
          rfl⟩
      · exact ⟨castListR [-1, 0], by
          rw [get_emb,
            show dictGet [("a", 0), ("b", 1)] "b" = some 1 from by decide]
          rfl⟩)

/-- C3 counterexample to the claim as stated: for the averaged query
`["a", "b"]` over the rows `[1, 0]` and `[-1, 0]` the resolved query
vector is exactly `[0, 0]` (the cancellation case), its L2 norm is
exactly zero, and `most_similar` still returns a two-entry ranking
instead of failing with any error — in the code the division by the zero
norm produces NaN scores, a runtime warning, no exception. -/
theorem mostSimilar_cancellation_no_error :
    build_query ⟨[("a", 0), ("b", 1)], [[1, 0], [-1, 0]]⟩
      (.list ["a", "b"]) = .ok [(0 : ℝ), 0] ∧
    l2norm [(0 : ℝ), 0] = 0 ∧
    ∃ l, most_similar ⟨[("a", 0), ("b", 1)], [[1, 0], [-1, 0]]⟩
      (.list ["a", "b"]) 2 = .ok l ∧ l.length = 2 := by
  have ha : get_emb ⟨[("a", 0), ("b", 1)], [[1, 0], [-1, 0]]⟩ "a" =
      some [(1 : ℝ), 0] := by
    simp [get_emb, dictGet, castListR]
  have hb : get_emb ⟨[("a", 0), ("b", 1)], [[1, 0], [-1, 0]]⟩ "b" =
      some [(-1 : ℝ), 0] := by
    simp [get_emb, dictGet, castListR]
  have hacc : accum_words ⟨[("a", 0), ("b", 1)], [[1, 0], [-1, 0]]⟩
      ["a", "b"] none = .ok (some [(0 : ℝ), 0]) := by
    simp only [accum_words, ha, hb]
    norm_num [addVec]
  have hq : build_query ⟨[("a", 0), ("b", 1)], [[1, 0], [-1, 0]]⟩
      (.list ["a", "b"]) = .ok [(0 : ℝ), 0] := by
    rw [build_query, hacc]
  refine ⟨hq, ?_, ?_⟩
  · rw [l2norm, show sqnorm [(0 : ℝ), 0] = 0 by norm_num [sqnorm, dot],
      Real.sqrt_zero]
  · refine ⟨_, most_similar_of_build_ok _ _ 2 _ hq, ?_⟩
    rw [rank, similar_idxs, List.length_map, List.length_take,
      List.length_reverse, argsort_length]
    rfl

/-- C8: querying `[w, w]` gives exactly the result of querying `w`, for
every index, word and `topn`: an unknown `w` fails identically on both
paths, and otherwise the summed vector `v + v` normalizes to the same
unit vector as `v`. -/
theorem mostSimilar_pair_eq_single (E : EmbeddingIndex) (w : String)
    (topn : Nat) :
    most_similar E (.list [w, w]) topn = most_similar E (.single w) topn := by
  cases hw : get_emb E w with
  | none =>
    rw [most_similar_of_build_err E _ topn _ (build_query_single_err E w hw)]
    have hacc : accum_words E [w, w] none = .error (.unknownWord w) := by
      simp only [accum_words, hw]
    rw [most_similar_of_build_err E _ topn _ (by rw [build_query, hacc])]
  | some v =>
    have hacc : accum_words E [w, w] none = .ok (some (addVec v v)) := by
      simp only [accum_words, hw]
    rw [most_similar_of_build_ok E _ topn _ (by rw [build_query, hacc]),
      most_similar_of_build_ok E _ topn _ (build_query_single_ok E w v hw),
      addVec_self, normalize_double]

/-- C9: the normalized lookup agrees with the raw lookup on its domain —
`get_normed_emb` is `get_emb` post-composed with row normalization (so
both are absent at exactly the same words), and the normalized vector has
unit L2 norm whenever the raw vector's norm is nonzero. -/
theorem get_normed_emb_spec (E : EmbeddingIndex) (w : String) :
    get_normed_emb E w = (get_emb E w).map normalize ∧
    ∀ v, get_emb E w = some v → l2norm v ≠ 0 → l2norm (normalize v) = 1 := by
  constructor
  · rw [get_normed_emb, get_emb, glove_embeddings_normed]
    cases hw : dictGet E.embeddings_index w with
    | none => rfl
    | some i =>
      show (E.glove_embeddings.map fun r => normalize (castListR r)).get? i =
        ((E.glove_embeddings.get? i).map castListR).map normalize
      rw [List.get?_map, Option.map_map]
      rfl
  · intro v _ hnz
    exact l2norm_normalize v hnz

/-- C9 witness on the row `[3, 4]` (norm `5`): the theorem's unit-norm
part applied at a concrete loaded row. -/
theorem get_normed_emb_spec_witness :
    l2norm (normalize (castListR [3, 4])) = 1 := by
  have h25 : l2norm (castListR [3, 4]) ≠ 0 := by
    rw [l2norm, sqnorm_castListR, show sqnormQ [3, 4] = 25 by
      norm_num [sqnormQ, dotQ]]
    rw [Real.sqrt_ne_zero']
    norm_num
  exact (get_normed_emb_spec ⟨[("p", 0)], [[3, 4]]⟩ "p").2 (castListR [3, 4])
    (by
      rw [get_emb, show dictGet [("p", 0)] "p" = some 0 from by decide]
      rfl)
    h25

/-- C10: with an in-vocabulary single-word query, `topn = 0` returns the
empty ranking with no error (python's `[:0]`), and in general the result
length is `min topn N` for every `topn ≥ 0`. -/
theorem mostSimilar_topn_zero (E : EmbeddingIndex) (w : String) (i : Nat)
    (vq : List ℚ) (hw : dictGet E.embeddings_index w = some i)
    (hrow : E.glove_embeddings.get? i = some vq) :
    most_similar E (.single w) 0 = .ok [] ∧
    ∀ n, ∃ l, most_similar E (.single w) n = .ok l ∧
      l.length = min n E.glove_embeddings.length := by
  have hemb : get_emb E w = some (castListR vq) := by
    rw [get_emb, hw]
    show (E.glove_embeddings.get? i).map castListR = some (castListR vq)
    rw [hrow]
    rfl
  have hbuild := build_query_single_ok E w _ hemb
  constructor
  · rw [most_similar_of_build_ok E _ 0 _ hbuild]
    rfl
  · intro n
    refine ⟨_, most_similar_of_build_ok E _ n _ hbuild, ?_⟩
    rw [rank, similar_idxs, List.length_map, List.length_take,
      List.length_reverse, argsort_length]

/-- C10 witness on a two-word index. -/
theorem mostSimilar_topn_zero_witness :
    most_similar ⟨[("a", 0), ("b", 1)], [[1, 0], [0, 1]]⟩ (.single "a") 0 =
      .ok [] ∧
    ∀ n, ∃ l, most_similar ⟨[("a", 0), ("b", 1)], [[1, 0], [0, 1]]⟩
      (.single "a") n = .ok l ∧
      l.length = min n (⟨[("a", 0), ("b", 1)], [[1, 0], [0, 1]]⟩ :
        EmbeddingIndex).glove_embeddings.length :=
  mostSimilar_topn_zero ⟨[("a", 0), ("b", 1)], [[1, 0], [0, 1]]⟩ "a" 0 [1, 0]
    (by decide) (by decide)

/-- C7 amended: for a list of in-vocabulary words, the query vector built
before L2 normalization is the elementwise SUM of the resolved raw
vectors — the code never divides by the word count (the spec's "average"
agrees only in direction, through the later normalization). -/
theorem build_query_list_is_sum (E : EmbeddingIndex) (w : String)
    (ws : List String) (v : List ℝ) (vs : List (List ℝ)) (D : Nat)
    (hw : get_emb E w = some v) (hrest : ws.mapM (get_emb E) = some vs)
    (hD : v.length = D) (hvs : ∀ u ∈ vs, u.length = D) :
    ∃ q, build_query E (.list (w :: ws)) = .ok q ∧ q.length = D ∧
      ∀ i, i < D → q.getD i 0 =
        v.getD i 0 + (vs.map (fun u => u.getD i 0)).sum := by
  have h := foldl_addVec_spec D vs v hvs hD
  exact ⟨_, build_query_list_ok E w ws v vs hw hrest, h.1, h.2⟩

/-- C7 amended witness on the rows `[1, 0]` and `[0, 1]`. -/
theorem build_query_list_is_sum_witness :
    ∃ q, build_query ⟨[("a", 0), ("b", 1)], [[1, 0], [0, 1]]⟩
      (.list ["a", "b"]) = .ok q ∧ q.length = 2 ∧
      ∀ i, i < 2 → q.getD i 0 =
        (castListR [1, 0]).getD i 0 +
          ([castListR [0, 1]].map (fun u => u.getD i 0)).sum := by
  refine build_query_list_is_sum ⟨[("a", 0), ("b", 1)], [[1, 0], [0, 1]]⟩
    "a" ["b"] (castListR [1, 0]) [castListR [0, 1]] 2 ?_ ?_ rfl ?_
  · rw [get_emb, show dictGet [("a", 0), ("b", 1)] "a" = some 0 from by decide]
    rfl
  · rw [List.mapM_cons,
      show get_emb ⟨[("a", 0), ("b", 1)], [[1, 0], [0, 1]]⟩ "b" =
        some (castListR [0, 1]) from by
          rw [get_emb, show dictGet [("a", 0), ("b", 1)] "b" = some 1 from
            by decide]
          rfl]
    rfl
  · intro u hu
    rcases List.mem_singleton.mp hu with rfl
    rfl

/-- C7 counterexample to the claim as stated: for the query
`["a", "b"]` with rows `[1, 0]` and `[0, 1]` the built pre-normalization
vector is the sum `[1, 1]`, not the elementwise average `[1/2, 1/2]`. -/
theorem build_query_not_average :
    build_query ⟨[("a", 0), ("b", 1)], [[1, 0], [0, 1]]⟩ (.list ["a", "b"]) =
      .ok [(1 : ℝ), 1] ∧ [(1 : ℝ), 1] ≠ [(1 : ℝ) / 2, 1 / 2] := by
  constructor
  · have ha : get_emb ⟨[("a", 0), ("b", 1)], [[1, 0], [0, 1]]⟩ "a" =
        some [(1 : ℝ), 0] := by
      simp [get_emb, dictGet, castListR]
    have hb : get_emb ⟨[("a", 0), ("b", 1)], [[1, 0], [0, 1]]⟩ "b" =
        some [(0 : ℝ), 1] := by
      simp [get_emb, dictGet, castListR]
    have hacc : accum_words ⟨[("a", 0), ("b", 1)], [[1, 0], [0, 1]]⟩
        ["a", "b"] none = .ok (some [(1 : ℝ), 1]) := by
      simp only [accum_words, ha, hb]
      norm_num [addVec]
    rw [build_query, hacc]
  · simp only [ne_eq, List.cons.injEq]
    norm_num

/-- C5: loading fails whenever some line carries a non-numeric vector
component (`ValueError` in the loop's `np.asarray`) or two lines have
inconsistent vector-component counts (`ValueError` in `np.vstack`); on
such files no `EmbeddingIndex` is produced. -/
theorem load_fails_on_malformed (lines : List (List String))
    (h : (∃ vs ∈ lines, ∃ t ∈ vs.tail, parseFloat t = none) ∨
         (∃ vs ∈ lines, ∃ ws ∈ lines, vs.tail.length ≠ ws.tail.length)) :
    ∃ e, load lines = .error e := by
  cases hloop : loadLoop lines 0 [] [] with
  | error e => exact ⟨e, by rw [load, hloop]⟩
  | ok res =>
    obtain ⟨d, vecs, k⟩ := res
    rcases h with hbad | ⟨vs, hvs, ws, hws, hne⟩
    · rcases loadLoop_err_of_bad lines 0 [] [] hbad with ⟨e, he⟩
      rw [he] at hloop
      cases hloop
    · rcases loadLoop_ok_vecs lines 0 [] [] (d, vecs, k) hloop with
        ⟨ps, hps, hfa⟩
      rcases forall₂_mem_left hfa vs hvs with ⟨p₁, hp₁, _, hm₁⟩
      rcases forall₂_mem_left hfa ws hws with ⟨p₂, hp₂, _, hm₂⟩
      have hl₁ : p₁.length = vs.tail.length := mapM_some_length _ _ _ hm₁
      have hl₂ : p₂.length = ws.tail.length := mapM_some_length _ _ _ hm₂
      have hstack : vstack vecs = .error .vstackError := by
        apply vstack_err_of_two vecs p₁ p₂
        · have : vecs = ps := by simpa using hps
          rw [this]; exact hp₁
        · have : vecs = ps := by simpa using hps
          rw [this]; exact hp₂
        · rw [hl₁, hl₂]; exact hne
      refine ⟨.vstackError, ?_⟩
      rw [load, hloop]
      show (match vstack vecs with
        | Except.error e => Except.error e
        | Except.ok m =>
            Except.ok (⟨d, m⟩ : EmbeddingIndex)) = Except.error .vstackError
      rw [hstack]

/-- C5 witness on a file whose two lines have one and two vector
components respectively. -/
theorem load_fails_on_malformed_witness :
    ∃ e, load [["cat", "1"], ["dog", "1", "2"]] = .error e :=
  load_fails_on_malformed [["cat", "1"], ["dog", "1", "2"]]
    (Or.inr ⟨["cat", "1"], by decide, ["dog", "1", "2"], by decide, by decide⟩)

/-- C4 amended: after a successful load of a file whose first-token words
are pairwise distinct, word→id is a bijection onto `[0, N)`: in
dictionary (= file) order the ids are exactly `0, 1, ..., N-1`, the words
are pairwise distinct, and `N` is the line count.  With a repeated
first-token word the claim fails: the dict overwrite keeps only the id of
the word's last line, so the ids are not contiguous (see the
counterexample). -/
theorem load_distinct_bijection (lines : List (List String))
    (E : EmbeddingIndex) (hload : load lines = .ok E)
    (hnd : (lines.map (fun vs => vs.headD "")).Nodup) :
    E.embeddings_index.map Prod.snd = List.range lines.length ∧
    (E.embeddings_index.map Prod.fst).Nodup ∧
    E.embeddings_index.length = lines.length := by
  cases hloop : loadLoop lines 0 [] [] with
  | error e => rw [load, hloop] at hload; cases hload
  | ok res =>
    obtain ⟨d, vecs, k⟩ := res
    have hidx := loadLoop_ok_index lines 0 [] [] (d, vecs, k) hloop
      (fun vs _ p hp => absurd hp (List.not_mem_nil p)) hnd
    have hE : E.embeddings_index = d := by
      rw [load, hloop] at hload
      have hload' : (match vstack vecs with
        | Except.error e => Except.error e
        | Except.ok m =>
            Except.ok (⟨d, m⟩ : EmbeddingIndex)) = Except.ok E := hload
      cases hvs : vstack vecs with
      | error e => rw [hvs] at hload'; cases hload'
      | ok m => rw [hvs] at hload'; cases hload'; rfl
    have h1 : d.map Prod.snd = List.range' 0 lines.length := by
      simpa using hidx.1
    have h2 : d.map Prod.fst = lines.map (fun vs => vs.headD "") := by
      simpa using hidx.2
    rw [hE]
    refine ⟨?_, ?_, ?_⟩
    · rw [h1, List.range_eq_range']
    · rw [h2]; exact hnd
    · have hlen := congrArg List.length h1
      simpa using hlen

/-- C4 amended witness on a two-line file with distinct words. -/
theorem load_distinct_bijection_witness :
    (⟨[("cat", 0), ("dog", 1)], [[1], [2]]⟩ :
      EmbeddingIndex).embeddings_index.map Prod.snd =
        List.range ([["cat", "1"], ["dog", "2"]] : List (List String)).length ∧
    ((⟨[("cat", 0), ("dog", 1)], [[1], [2]]⟩ :
      EmbeddingIndex).embeddings_index.map Prod.fst).Nodup ∧
    (⟨[("cat", 0), ("dog", 1)], [[1], [2]]⟩ :
      EmbeddingIndex).embeddings_index.length =
        ([["cat", "1"], ["dog", "2"]] : List (List String)).length :=
  load_distinct_bijection [["cat", "1"], ["dog", "2"]]
    ⟨[("cat", 0), ("dog", 1)], [[1], [2]]⟩ rfl (by decide)

/-- C4 counterexample to the claim as stated: loading a file that repeats
the first-token word `"cat"` succeeds, but the dictionary comes out as
`[("cat", 1)]` — the id of the word's LAST line — so the id list is `[1]`
while a bijection onto `[0, N)` for the `N = 1` distinct word would
require `[0]`. -/
theorem load_repeat_not_bijection :
    load [["cat", "1"], ["cat", "2"]] = .ok ⟨[("cat", 1)], [[1], [2]]⟩ ∧
    [("cat", (1 : Nat))].map Prod.snd ≠
      List.range ([("cat", (1 : Nat))].length) := by
  exact ⟨rfl, by decide⟩

/-- C1 amended: on an index with no zero rows and a query that resolves
to a nonzero vector (zero vectors would put NaN scores into the code's
cosines, which numpy orders by its own NaN rule), `most_similar` sorts
all `N` cosine scores in non-increasing order and the output is
deterministic.  The claimed ascending-id tie-break is false: at the
counterexample numpy's (insertion-)sort gives the LARGER id first after
`[::-1]`; and no universal tie order is guaranteed at all, since
`np.argsort`'s default quicksort is documented as unstable. -/
theorem mostSimilar_sorted_desc (E : EmbeddingIndex) (q : Query)
    (topn : Nat) (qv : List ℝ) (hq : build_query E q = .ok qv)
    (_hq0 : sqnorm qv ≠ 0)
    (_hrows : ∀ r ∈ E.glove_embeddings, sqnormQ r ≠ 0) :
    ∃ full : List Nat,
      full.Perm (List.range E.glove_embeddings.length) ∧
      full.Pairwise (fun i j =>
        cosines E (normalize qv) j ≤ cosines E (normalize qv) i) ∧
      most_similar E q topn = .ok ((full.take topn).map
        (fun i => ((inv_index E i).getD "", cosines E (normalize qv) i))) := by
  refine ⟨(argsort (cosines E (normalize qv))
      E.glove_embeddings.length).reverse,
    rev_argsort_perm _ _, ?_, ?_⟩
  · refine (rev_argsort_pairwise _ _).imp ?_
    intro a b hab
    rcases hab with hlt | ⟨heq, _⟩
    · exact le_of_lt hlt
    · exact le_of_eq heq.symm
  · rw [most_similar_of_build_ok E q topn qv hq]
    rfl

/-- C1 amended witness on a two-word index with nonzero orthogonal rows. -/
theorem mostSimilar_sorted_desc_witness :
    ∃ full : List Nat,
      full.Perm (List.range (⟨[("a", 0), ("b", 1)], [[1, 0], [0, 1]]⟩ :
        EmbeddingIndex).glove_embeddings.length) ∧
      full.Pairwise (fun i j =>
        cosines ⟨[("a", 0), ("b", 1)], [[1, 0], [0, 1]]⟩
            (normalize (castListR [1, 0])) j ≤
          cosines ⟨[("a", 0), ("b", 1)], [[1, 0], [0, 1]]⟩
            (normalize (castListR [1, 0])) i) ∧
      most_similar ⟨[("a", 0), ("b", 1)], [[1, 0], [0, 1]]⟩ (.single "a") 2 =
        .ok ((full.take 2).map (fun i =>
          ((inv_index ⟨[("a", 0), ("b", 1)], [[1, 0], [0, 1]]⟩ i).getD "",
            cosines ⟨[("a", 0), ("b", 1)], [[1, 0], [0, 1]]⟩
              (normalize (castListR [1, 0])) i))) :=
  mostSimilar_sorted_desc ⟨[("a", 0), ("b", 1)], [[1, 0], [0, 1]]⟩
    (.single "a") 2 (castListR [1, 0])
    (by
      rw [build_query,
        show get_emb ⟨[("a", 0), ("b", 1)], [[1, 0], [0, 1]]⟩ "a" =
            some (castListR [1, 0]) from by
          rw [get_emb,
            show dictGet [("a", 0), ("b", 1)] "a" = some 0 from by decide]
          rfl])
    (by
      rw [sqnorm_castListR]
      norm_num [sqnormQ, dotQ])
    (by
      intro r hr
      simp only [List.mem_cons, List.not_mem_nil, or_false] at hr
      rcases hr with rfl | rfl <;> norm_num [sqnormQ, dotQ])

/-- C1 counterexample to the claim as stated: with two identical rows the
query `"a"` scores `1` on both, and the returned order is
`[("b", 1), ("a", 1)]` — the tie is broken by DESCENDING vocabulary id,
not ascending (which would give `[("a", 1), ("b", 1)]`). -/
theorem mostSimilar_tie_descending :
    most_similar ⟨[("a", 0), ("b", 1)], [[1, 0], [1, 0]]⟩ (.single "a") 2 =
      .ok [("b", 1), ("a", 1)] ∧
    ([("b", (1 : ℝ)), ("a", 1)] ≠ [("a", (1 : ℝ)), ("b", 1)]) := by
  constructor
  · have hq : build_query ⟨[("a", 0), ("b", 1)], [[1, 0], [1, 0]]⟩
        (.single "a") = .ok [(1 : ℝ), 0] := by
      simp [build_query, get_emb, dictGet, castListR]
    have hn : normalize [(1 : ℝ), 0] = [1, 0] := by
      norm_num [normalize, l2norm, sqnorm, dot]
    have hc0 : cosines ⟨[("a", 0), ("b", 1)], [[1, 0], [1, 0]]⟩ [1, 0] 0 = 1 := by
      norm_num [cosines, glove_embeddings_normed, castListR, normalize,
        l2norm, sqnorm, dot]
    have hc1 : cosines ⟨[("a", 0), ("b", 1)], [[1, 0], [1, 0]]⟩ [1, 0] 1 = 1 := by
      norm_num [cosines, glove_embeddings_normed, castListR, normalize,
        l2norm, sqnorm, dot]
    have hs : argsort (cosines ⟨[("a", 0), ("b", 1)], [[1, 0], [1, 0]]⟩ [1, 0]) 2 =
        [0, 1] := by
      rw [argsort, show List.range 2 = [0, 1] from rfl]
      simp [List.insertionSort, List.orderedInsert, ordKey, hc0, hc1]
    rw [most_similar_of_build_ok _ _ 2 _ hq]
    rw [rank, similar_idxs, hn]
    simp only [show (⟨[("a", 0), ("b", 1)], [[1, 0], [1, 0]]⟩ :
      EmbeddingIndex).glove_embeddings.length = 2 from rfl, hs]
    simp only [List.reverse_cons, List.reverse_nil, List.nil_append,
      List.cons_append, List.take, List.map_cons, List.map_nil]
    simp [inv_index, invGet]
    exact ⟨hc1, hc0⟩
  · simp only [ne_eq, List.cons.injEq, Prod.mk.injEq]
    intro h
    exact absurd h.1.1 (by decide)

lemma normed_row_some (E : EmbeddingIndex) (j : Nat) (r : List ℚ)
    (h : E.glove_embeddings.get? j = some r) :
    (glove_embeddings_normed E).getD j [] = normalize (castListR r) := by
  rw [glove_embeddings_normed, List.getD_eq_getElem?_getD,
    ← List.get?_eq_getElem?, List.get?_map, h]
  rfl

lemma normed_row_none (E : EmbeddingIndex) (j : Nat)
    (h : E.glove_embeddings.get? j = none) :
    (glove_embeddings_normed E).getD j [] = [] := by
  rw [glove_embeddings_normed, List.getD_eq_getElem?_getD,
    ← List.get?_eq_getElem?, List.get?_map, h]
  rfl

/-- In the model every cosine against a normalized query is at most `1`
(zero rows score the model's `0` where the code has NaN). -/
lemma cosines_le_one (E : EmbeddingIndex) (v : List ℝ) (j : Nat) :
    cosines E (normalize v) j ≤ 1 := by
  rw [cosines]
  cases hj : E.glove_embeddings.get? j with
  | none =>
    rw [normed_row_none E j hj, dot_nil_left]
    norm_num
  | some r =>
    rw [normed_row_some E j r hj]
    exact dot_normalize_le_one (castListR r) v

/-- C6 amended: on an index with no zero rows (a zero row's cosine is NaN
in the code and is ordered by numpy's NaN rule, so such rows are
excluded), for every in-vocabulary word `w` and `topn = k ≥ 1`,
`most_similar(w, k)` returns exactly `min k N` entries with
non-increasing scores, and the first entry's score is exactly `1`
(self-similarity; "within floating tolerance" in the code's float
arithmetic).  The first entry need NOT be `w` itself: any row with the
same direction ties at score `1` (see the counterexample, where the tie
resolves to the larger id). -/
theorem mostSimilar_top_spec (E : EmbeddingIndex) (w : String) (i : Nat)
    (vq : List ℚ) (k : Nat)
    (hw : dictGet E.embeddings_index w = some i)
    (hrow : E.glove_embeddings.get? i = some vq)
    (hrows : ∀ r ∈ E.glove_embeddings, sqnormQ r ≠ 0) (hk : 1 ≤ k) :
    ∃ l, most_similar E (.single w) k = .ok l ∧
      l.length = min k E.glove_embeddings.length ∧
      l.Pairwise (fun p₁ p₂ => p₂.2 ≤ p₁.2) ∧
      ∃ p, l.head? = some p ∧ p.2 = 1 := by
  have hnz : sqnormQ vq ≠ 0 := hrows vq (List.get?_mem hrow)
  have hemb : get_emb E w = some (castListR vq) := by
    rw [get_emb, hw]
    show (E.glove_embeddings.get? i).map castListR = some (castListR vq)
    rw [hrow]
    rfl
  have hbuild := build_query_single_ok E w _ hemb
  set N := E.glove_embeddings.length with hN
  set f := cosines E (normalize (castListR vq)) with hf
  set full := (argsort f N).reverse with hfulldef
  have hiN : i < N := by
    rcases List.get?_eq_some.mp hrow with ⟨h, _⟩
    exact h
  have hlenfull : full.length = N := by
    rw [hfulldef, List.length_reverse, argsort_length]
  have hne : full ≠ [] := by
    intro hcon
    rw [hcon] at hlenfull
    simp at hlenfull
    omega
  obtain ⟨h0, t, hfull⟩ := List.exists_cons_of_ne_nil hne
  have hpw := rev_argsort_pairwise f N
  rw [← hfulldef] at hpw
  have hmem : i ∈ full := by
    rw [hfulldef]
    exact (rev_argsort_perm f N).mem_iff.mpr (List.mem_range.mpr hiN)
  have hfi : f i = 1 := by
    rw [hf, cosines, normed_row_some E i vq hrow]
    refine dot_normalize_self (castListR vq) ?_
    rw [sqnorm_castListR]
    exact fun hc => hnz (by exact_mod_cast hc)
  have hle1 : ∀ j, f j ≤ 1 := fun j => cosines_le_one E (castListR vq) j
  have hmax : ∀ j ∈ full, f j ≤ f h0 := by
    intro j hj
    rw [hfull] at hj hpw
    rcases List.mem_cons.mp hj with rfl | hjt
    · exact le_refl _
    · rcases (List.pairwise_cons.mp hpw).1 j hjt with hlt | ⟨heq, _⟩
      · exact le_of_lt hlt
      · exact le_of_eq heq.symm
  have hf0 : f h0 = 1 :=
    le_antisymm (hle1 h0) (hfi ▸ hmax i hmem)
  refine ⟨rank E (normalize (castListR vq)) k,
    most_similar_of_build_ok E _ k _ hbuild, ?_, ?_, ?_⟩
  · rw [rank, similar_idxs, List.length_map, List.length_take,
      List.length_reverse, argsort_length]
  · rw [rank, List.pairwise_map]
    have hsub : (similar_idxs E (normalize (castListR vq)) k).Sublist full := by
      rw [similar_idxs, hfulldef]
      exact List.take_sublist k _
    refine (hpw.sublist hsub).imp ?_
    intro a b hab
    rcases hab with hlt | ⟨heq, _⟩
    · exact le_of_lt hlt
    · exact le_of_eq heq.symm
  · obtain ⟨k', rfl⟩ : ∃ k', k = k' + 1 := by
      cases k with
      | zero => omega
      | succ k' => exact ⟨k', rfl⟩
    have hidxs : similar_idxs E (normalize (castListR vq)) (k' + 1) =
        h0 :: t.take k' := by
      rw [similar_idxs, ← hfulldef, hfull]
      rfl
    refine ⟨((inv_index E h0).getD "", f h0), ?_, hf0⟩
    rw [rank, hidxs]
    rfl

/-- C6 amended witness on a two-word index with orthogonal rows. -/
theorem mostSimilar_top_spec_witness :
    ∃ l, most_similar ⟨[("a", 0), ("b", 1)], [[1, 0], [0, 1]]⟩
        (.single "a") 2 = .ok l ∧
      l.length = min 2 (⟨[("a", 0), ("b", 1)], [[1, 0], [0, 1]]⟩ :
        EmbeddingIndex).glove_embeddings.length ∧
      l.Pairwise (fun p₁ p₂ => p₂.2 ≤ p₁.2) ∧
      ∃ p, l.head? = some p ∧ p.2 = 1 :=
  mostSimilar_top_spec ⟨[("a", 0), ("b", 1)], [[1, 0], [0, 1]]⟩ "a" 0 [1, 0] 2
    (by decide) (by decide)
    (by
      intro r hr
      simp only [List.mem_cons, List.not_mem_nil, or_false] at hr
      rcases hr with rfl | rfl <;> norm_num [sqnormQ, dotQ])
    (by decide)

/-- C6 counterexample to "the first entry is `w` itself": the row of
`"b"` is `[2, 0]`, the same direction as the queried `"a"` row `[1, 0]`,
so both cosines are `1` and the tie resolves to the larger id first — the
result is `[("b", 1), ("a", 1)]`, whose first entry is not `"a"`. -/
theorem mostSimilar_first_not_self :
    most_similar ⟨[("a", 0), ("b", 1)], [[1, 0], [2, 0]]⟩ (.single "a") 2 =
      .ok [("b", 1), ("a", 1)] ∧ ("b" : String) ≠ "a" := by
  have h4 : Real.sqrt 4 = 2 := by
    rw [show (4 : ℝ) = 2 ^ 2 by norm_num, Real.sqrt_sq (by norm_num : (0:ℝ) ≤ 2)]
  constructor
  · have hq : build_query ⟨[("a", 0), ("b", 1)], [[1, 0], [2, 0]]⟩
        (.single "a") = .ok [(1 : ℝ), 0] := by
      simp [build_query, get_emb, dictGet, castListR]
    have hn : normalize [(1 : ℝ), 0] = [1, 0] := by
      norm_num [normalize, l2norm, sqnorm, dot]
    have hc0 : cosines ⟨[("a", 0), ("b", 1)], [[1, 0], [2, 0]]⟩ [1, 0] 0 = 1 := by
      norm_num [cosines, glove_embeddings_normed, castListR, normalize,
        l2norm, sqnorm, dot]
    have hc1 : cosines ⟨[("a", 0), ("b", 1)], [[1, 0], [2, 0]]⟩ [1, 0] 1 = 1 := by
      norm_num [cosines, glove_embeddings_normed, castListR, normalize,
        l2norm, sqnorm, dot, h4]
    have hs : argsort (cosines ⟨[("a", 0), ("b", 1)], [[1, 0], [2, 0]]⟩ [1, 0]) 2 =
        [0, 1] := by
      rw [argsort, show List.range 2 = [0, 1] from rfl]
      simp [List.insertionSort, List.orderedInsert, ordKey, hc0, hc1]
    rw [most_similar_of_build_ok _ _ 2 _ hq]
    rw [rank, similar_idxs, hn]
    simp only [show (⟨[("a", 0), ("b", 1)], [[1, 0], [2, 0]]⟩ :
      EmbeddingIndex).glove_embeddings.length = 2 from rfl, hs]
    simp only [List.reverse_cons, List.reverse_nil, List.nil_append,
      List.cons_append, List.take, List.map_cons, List.map_nil]
    simp [inv_index, invGet]
    exact ⟨hc1, hc0⟩
  · decide

end Glove
